import Mathlib

/-!
# Verification of the `reposcore-py` repository analyzer

Shallow embedding of `src/reposcore/analyzer.py` (class `RepoAnalyzer`):
the activity collector `collect_PRs_and_issues` and the scorer
`calculate_scores`, with theorems checking the natural-language
specification against this embedding.

Modelling conventions:
* Python `dict`s keyed by participant name are association lists in
  insertion order (Python dicts preserve insertion order).
* Python integers are `ℤ` (collector counters, which only ever hold
  naturals, are `ℕ`); the float `rate` is idealized as `ℚ`, with
  `round(x, 1)` as exact round-half-to-even at one decimal.
* A per-participant activity dict that may lack keys or hold negative
  numbers is a structure of six `Option ℤ` fields; `dict.get(k, 0)`
  is `Option.getD · 0`.
* The paginated HTTP loop consumes a list of pre-fetched page
  responses; the HTTP transport itself is out of scope.
-/

set_option linter.unusedVariables false

attribute [local semireducible] Rat.mul Rat.inv Rat.add Rat.sub

namespace RepoScore

/-! ## Collector data model (`collect_PRs_and_issues`, analyzer.py lines 29-114) -/

/-- The six per-participant activity buckets the collector accumulates
(`self.participants[author]`, analyzer.py lines 71-78). -/
structure Counts where
  p_enhancement : ℕ
  p_bug : ℕ
  p_documentation : ℕ
  i_enhancement : ℕ
  i_bug : ℕ
  i_documentation : ℕ
deriving DecidableEq

/-- The dict a newly seen author is registered with (lines 71-78): all six
buckets zero. -/
def initCounts : Counts := ⟨0, 0, 0, 0, 0, 0⟩

/-- A raw item from the GitHub issues endpoint, restricted to the fields
the collector reads.  `user` is `item['user']['login']` when present;
`labels` holds the label names (a label whose name is missing is `""`);
`pullRequest` is `some merged_at` when the item has a `pull_request` key
(`merged_at` itself optional); `stateReason` is `item['state_reason']`. -/
structure Item where
  user : Option String
  labels : List String
  pullRequest : Option (Option String)
  stateReason : Option String
deriving DecidableEq

/-- `item.get('user', {}).get('login', 'Unknown')` (line 69). -/
def authorOf (it : Item) : String := it.user.getD "Unknown"

/-- Python `str.lower()` on a label name, modeled characterwise. -/
def lowerStr (s : String) : String := String.mk (s.data.map Char.toLower)

/-- `[label.get('name', '').lower() for label in labels if label.get('name')]`
(line 81): drop falsy (empty) names, lowercase the rest. -/
def lowNames (it : Item) : List String :=
  (it.labels.filter (fun n => n != "")).map lowerStr

/-- Python truthiness of the optional `merged_at` string (`if merged_at:`,
line 88): `None` and `""` are falsy. -/
def truthy : Option String → Bool
  | none => false
  | some s => s != ""

/-- `state_reason in ('completed', 'reopened', None)` (line 96). -/
def okState (r : Option String) : Bool :=
  r == some "completed" || r == some "reopened" || r == none

/-- Association-list lookup, first match (Python dict access). -/
def findA {α : Type} : List (String × α) → String → Option α
  | [], _ => none
  | (k, v) :: rest, a => if k = a then some v else findA rest a

/-- Update the entry at a key in place, preserving order (Python
`dict[k] = f(dict[k])`). -/
def updA {α : Type} : List (String × α) → String → (α → α) → List (String × α)
  | [], _, _ => []
  | (k, v) :: rest, a, f =>
    if k = a then (k, f v) :: updA rest a f else (k, v) :: updA rest a f

/-- `if key in self.participants[author]: self.participants[author][key] += 1`
(lines 90-92 / 98-100).  The collector dicts have exactly the six bucket
keys, so a key bumps its bucket and any other key is a no-op. -/
def incrK (c : Counts) (key : String) : Counts :=
  if key = "p_enhancement" then { c with p_enhancement := c.p_enhancement + 1 }
  else if key = "p_bug" then { c with p_bug := c.p_bug + 1 }
  else if key = "p_documentation" then { c with p_documentation := c.p_documentation + 1 }
  else if key = "i_enhancement" then { c with i_enhancement := c.i_enhancement + 1 }
  else if key = "i_bug" then { c with i_bug := c.i_bug + 1 }
  else if key = "i_documentation" then { c with i_documentation := c.i_documentation + 1 }
  else c

/-- The collector's participant dict: author → bucket counts, in first-seen
order. -/
abbrev Participants := List (String × Counts)

/-- `for label in label_names: key = f'X_{label}'; if key in ...: ... += 1`:
fold the keyed increments over the lowercased label names, `pref` being
`"p_"` (line 90) or `"i_"` (line 98). -/
def bumpAll (m : Participants) (author : String) (pref : String)
    (names : List String) : Participants :=
  names.foldl (fun acc l => updA acc author (fun c => incrK c (pref ++ l))) m

/-- The body of `for item in items` (lines 68-100): register the author if
unseen (append, preserving first-seen order), then credit a merged PR's
labels to the `p_` buckets, or a not-`not_planned` issue's labels to the
`i_` buckets. -/
def processItem (m : Participants) (it : Item) : Participants :=
  let author := authorOf it
  let m1 := if (findA m author).isSome then m else m ++ [(author, initCounts)]
  match it.pullRequest with
  | some mergedAt =>
    if truthy mergedAt then bumpAll m1 author "p_" (lowNames it) else m1
  | none =>
    if okState it.stateReason then bumpAll m1 author "i_" (lowNames it) else m1

/-- One page's worth of the item loop. -/
def processItems (m : Participants) (items : List Item) : Participants :=
  items.foldl processItem m

/-- One response of the paginated issues endpoint: HTTP status, decoded
items, and whether the `link` header carries `rel="next"` (lines 103-107). -/
structure PageResponse where
  status : ℕ
  items : List Item
  hasNext : Bool

/-- The `while True` pagination loop (lines 43-107), consuming the stream of
page responses in order.  A 403 (line 55) or any other non-200 status
(line 59) returns at once with `_data_collected = False` (the `Bool`
component); an empty item list or a missing `rel="next"` ends the loop
normally. -/
def collectGo : List PageResponse → Participants → Participants × Bool
  | [], parts => (parts, true)
  | r :: rest, parts =>
    if r.status = 403 then (parts, false)
    else if r.status ≠ 200 then (parts, false)
    else if r.items.isEmpty then (parts, true)
    else
      let parts1 := processItems parts r.items
      if r.hasNext then collectGo rest parts1 else (parts1, true)

/-- `collect_PRs_and_issues` (lines 29-114): run the pagination loop from an
empty participant dict; the `Bool` is the final `_data_collected` flag
(initialized `True`, line 24). -/
def collect_PRs_and_issues (pages : List PageResponse) : Participants × Bool :=
  collectGo pages []

/-! ## Scorer data model (`calculate_scores`, analyzer.py lines 116-162) -/

/-- A per-participant activity dict as the scorer reads it: each of the six
keys may be absent (`none`) and the scorer takes it as `0` via
`activities.get(key, 0)`; present values are arbitrary integers. -/
structure Activities where
  p_enhancement : Option ℤ
  p_bug : Option ℤ
  p_documentation : Option ℤ
  i_enhancement : Option ℤ
  i_bug : Option ℤ
  i_documentation : Option ℤ
deriving DecidableEq

/-- A collector-produced dict has all six keys, holding naturals. -/
def toActivities (c : Counts) : Activities :=
  ⟨some (c.p_enhancement : ℤ), some (c.p_bug : ℤ), some (c.p_documentation : ℤ),
    some (c.i_enhancement : ℤ), some (c.i_bug : ℤ), some (c.i_documentation : ℤ)⟩

/-- The scorer's per-participant output dict (lines 146-152 plus the `rate`
key added at line 160). -/
structure Score where
  featBugPR : ℤ
  docPR : ℤ
  featBugIssue : ℤ
  docIssue : ℤ
  total : ℤ
  rate : ℚ
deriving DecidableEq

/-- `p_valid = p_fb + min(p_d, 3 * max(1, p_fb))` (line 135). -/
def p_valid_of (p_fb p_d : ℤ) : ℤ := p_fb + min p_d (3 * max 1 p_fb)

/-- `i_valid = min(i_fb + i_d, 4 * p_valid)` (line 136). -/
def i_valid_of (p_valid i_fb i_d : ℤ) : ℤ := min (i_fb + i_d) (4 * p_valid)

/-- The body of the scoring loop for one participant (lines 121-152).
`rate` is set to `0` here only because the Lean structure is total; the
source adds the `rate` key in the separate loop modeled by `withRates`. -/
def scoreOne (activities : Activities) : Score :=
  let p_f := activities.p_enhancement.getD 0
  let p_b := activities.p_bug.getD 0
  let p_d := activities.p_documentation.getD 0
  let p_fb := p_f + p_b
  let i_f := activities.i_enhancement.getD 0
  let i_b := activities.i_bug.getD 0
  let i_d := activities.i_documentation.getD 0
  let i_fb := i_f + i_b
  let p_valid := p_valid_of p_fb p_d
  let i_valid := i_valid_of p_valid i_fb i_d
  let p_fb_at := min p_fb p_valid
  let p_d_at := p_valid - p_fb
  let i_fb_at := min i_fb i_valid
  let i_d_at := i_valid - i_fb_at
  let S := 3 * p_fb_at + 2 * p_d_at + 2 * i_fb_at + 1 * i_d_at
  { featBugPR := 3 * p_fb_at
    docPR := 2 * p_d_at
    featBugIssue := 2 * i_fb_at
    docIssue := 1 * i_d_at
    total := S
    rate := 0 }

/-- The scorer's input dict: participant → activities, in insertion order. -/
abbrev ActivityMap := List (String × Activities)

/-- The first loop of `calculate_scores` (lines 121-152): score every
participant in input order. -/
def scoreList (participants : ActivityMap) : List (String × Score) :=
  participants.map (fun pa => (pa.1, scoreOne pa.2))

/-- `total_score_sum` accumulated at line 154. -/
def total_score_sum (participants : ActivityMap) : ℤ :=
  ((scoreList participants).map (fun e => e.2.total)).sum

/-- Round half to even to the nearest integer: the tie-breaking rule of
Python's built-in `round`. -/
def roundHalfEven (q : ℚ) : ℤ :=
  if q - ⌊q⌋ < 1/2 then ⌊q⌋
  else if 1/2 < q - ⌊q⌋ then ⌊q⌋ + 1
  else if ⌊q⌋ % 2 = 0 then ⌊q⌋ else ⌊q⌋ + 1

/-- `round(x, 1)` (line 160): round to the nearest multiple of 1/10. -/
def round1 (q : ℚ) : ℚ := (roundHalfEven (q * 10) : ℚ) / 10

/-- The rate loop (lines 157-160):
`rate = (total / total_score_sum) * 100 if total_score_sum > 0 else 0`,
then `round(rate, 1)`. -/
def withRates (participants : ActivityMap) : List (String × Score) :=
  let T := total_score_sum participants
  (scoreList participants).map fun e =>
    (e.1,
      { e.2 with
        rate := if 0 < T then round1 (((e.2.total : ℚ) / (T : ℚ)) * 100) else 0 })

/-- Insert into a descending-by-total list, after any earlier entry of equal
total. -/
def insertByTotal (x : String × Score) :
    List (String × Score) → List (String × Score)
  | [] => [x]
  | y :: ys => if x.2.total < y.2.total then y :: insertByTotal x ys else x :: y :: ys

/-- `sorted(scores.items(), key=lambda x: x[1]['total'], reverse=True)`
(line 162).  Python's `sorted` is a stable sort even with `reverse=True`,
and a stable descending sort of a keyed list is extensionally unique, so
it is modeled as stable insertion sort. -/
def sortByTotalDesc : List (String × Score) → List (String × Score)
  | [] => []
  | x :: xs => insertByTotal x (sortByTotalDesc xs)

/-- `calculate_scores` (lines 116-162). -/
def calculate_scores (participants : ActivityMap) : List (String × Score) :=
  sortByTotalDesc (withRates participants)

/-- Hand the collector's dict to the scorer. -/
def toActivityMap (m : Participants) : ActivityMap :=
  m.map (fun p => (p.1, toActivities p.2))

/-- Modelled from the spec: the caller that wires Collector to Scorer (the
CLI entry point, not under `src/`) "must not silently present an
undercount as a final score" — it runs `calculate_scores` only when the
Collector did not signal the terminal "data incomplete" condition
(`_data_collected = False`), and otherwise aborts without scoring. -/
def runPipeline (pages : List PageResponse) : Option (List (String × Score)) :=
  let res := collect_PRs_and_issues pages
  if res.2 then some (calculate_scores (toActivityMap res.1)) else none

/-! ## Statement-side vocabulary (used by the claim theorems) -/

/-- How many of an item's labels case-insensitively match `lbl`. -/
def labelCount (it : Item) (lbl : String) : ℕ :=
  (it.labels.map lowerStr).count lbl

/-- The claim's PR crediting condition: the item is a pull request and has
been merged. -/
def prCredits (it : Item) : Bool :=
  match it.pullRequest with
  | some m => truthy m
  | none => false

/-- The claim's issue crediting condition: the item is an issue whose
`state_reason` is `None`, `'reopened'`, or `'completed'`. -/
def issueCredits (it : Item) : Bool :=
  match it.pullRequest with
  | some _ => false
  | none => okState it.stateReason

/-- The bucket increments one item should produce according to the claims:
qualifying PRs credit `p_` buckets, qualifying issues `i_` buckets, one
per case-insensitively matching label. -/
def deltaOf (it : Item) : Counts :=
  if prCredits it then
    ⟨labelCount it "enhancement", labelCount it "bug", labelCount it "documentation", 0, 0, 0⟩
  else if issueCredits it then
    ⟨0, 0, 0, labelCount it "enhancement", labelCount it "bug", labelCount it "documentation"⟩
  else initCounts

/-- Fieldwise sum of bucket counts. -/
def addCounts (a b : Counts) : Counts :=
  ⟨a.p_enhancement + b.p_enhancement, a.p_bug + b.p_bug,
    a.p_documentation + b.p_documentation, a.i_enhancement + b.i_enhancement,
    a.i_bug + b.i_bug, a.i_documentation + b.i_documentation⟩

/-- Replace every missing activity key by an explicit `0` (the
normalization the spec describes). -/
def fillMissing (a : Activities) : Activities :=
  ⟨some (a.p_enhancement.getD 0), some (a.p_bug.getD 0),
    some (a.p_documentation.getD 0), some (a.i_enhancement.getD 0),
    some (a.i_bug.getD 0), some (a.i_documentation.getD 0)⟩

/-- Additionally clamp negative counts to `0` (the spec's full defensive
normalization). -/
def normalizeNonneg (a : Activities) : Activities :=
  ⟨some (max 0 (a.p_enhancement.getD 0)), some (max 0 (a.p_bug.getD 0)),
    some (max 0 (a.p_documentation.getD 0)), some (max 0 (a.i_enhancement.getD 0)),
    some (max 0 (a.i_bug.getD 0)), some (max 0 (a.i_documentation.getD 0))⟩

/-- The all-zero score row with rate 0. -/
def zeroScore : Score := ⟨0, 0, 0, 0, 0, 0⟩



/-- Running credit of author `a` over a list of items, as the claims
describe it: fold `deltaOf` over the items authored by `a`. -/
def creditGo (a : String) (c : Counts) : List Item → Counts
  | [] => c
  | it :: its =>
    creditGo a (if authorOf it = a then addCounts c (deltaOf it) else c) its

/-! ## Concrete inputs used by witnesses and counterexamples -/

/-- One participant with a single enhancement PR (total 3, rate 100). -/
def partsA : ActivityMap := [("a", ⟨some 1, none, none, none, none, none⟩)]

/-- One participant with all-zero counts (total 0, rate 0). -/
def partsZ : ActivityMap := [("z", ⟨some 0, some 0, some 0, some 0, some 0, some 0⟩)]

/-- A merged pull request by alice with two matching labels (one only by
case) and one non-matching label. -/
def itemPR : Item :=
  ⟨some "alice", ["Enhancement", "bug", "wontfix"], some (some "2024-05-01"), none⟩

/-- An unmerged pull request by alice carrying a matching label: it
qualifies for no credit. -/
def itemUnmerged : Item := ⟨some "alice", ["bug"], some none, none⟩

/-- Six equal participants, one enhancement PR each: every rate rounds up
to 16.7 and the rates sum to 100.2. -/
def parts6 : ActivityMap :=
  [("u1", ⟨some 1, none, none, none, none, none⟩),
    ("u2", ⟨some 1, none, none, none, none, none⟩),
    ("u3", ⟨some 1, none, none, none, none, none⟩),
    ("u4", ⟨some 1, none, none, none, none, none⟩),
    ("u5", ⟨some 1, none, none, none, none, none⟩),
    ("u6", ⟨some 1, none, none, none, none, none⟩)]

/-! ## Helper lemmas -/

theorem strAppend_right_inj (p a b : String) : p ++ a = p ++ b ↔ a = b := by
  constructor
  · intro h
    have hd := congrArg String.data h
    rw [String.data_append, String.data_append] at hd
    exact String.ext (List.append_cancel_left hd)
  · intro h
    rw [h]

theorem pKey_ne_iKey (a b : String) : ("p_" ++ a) ≠ ("i_" ++ b) := by
  intro h
  have hd := congrArg String.data h
  rw [String.data_append, String.data_append] at hd
  have hp : ("p_").data = ['p', '_'] := by decide
  have hi : ("i_").data = ['i', '_'] := by decide
  rw [hp, hi, List.cons_append, List.cons_append, List.nil_append,
    List.cons_append, List.cons_append, List.nil_append] at hd
  injection hd with h1 _
  exact absurd h1 (by decide)

theorem scoreOne_fillMissing (a : Activities) :
    scoreOne (fillMissing a) = scoreOne a := by
  simp [scoreOne, fillMissing]

theorem scoreList_fillMissing (parts : ActivityMap) :
    scoreList (parts.map (fun p => (p.1, fillMissing p.2))) = scoreList parts := by
  simp only [scoreList, List.map_map]
  exact List.map_congr_left (fun p _ => by simp [Function.comp, scoreOne_fillMissing])

/-! ## Collector lemmas -/

theorem findA_updA_self {α : Type} (m : List (String × α)) (a : String) (f : α → α) :
    findA (updA m a f) a = (findA m a).map f := by
  induction m with
  | nil => rfl
  | cons kv rest ih =>
    obtain ⟨k, v⟩ := kv
    by_cases h : k = a
    · simp [updA, findA, h]
    · simp [updA, findA, h, ih]

theorem findA_updA_ne {α : Type} (m : List (String × α)) (a b : String) (f : α → α)
    (h : b ≠ a) : findA (updA m a f) b = findA m b := by
  induction m with
  | nil => rfl
  | cons kv rest ih =>
    obtain ⟨k, v⟩ := kv
    by_cases hk : k = a
    · subst hk
      simp [updA, findA, Ne.symm h, ih]
    · by_cases hb : k = b
      · simp [updA, findA, hk, hb, h]
      · simp [updA, findA, hk, hb, ih]

theorem findA_append {α : Type} (m1 m2 : List (String × α)) (a : String) :
    findA (m1 ++ m2) a = (findA m1 a).or (findA m2 a) := by
  induction m1 with
  | nil => simp [findA]
  | cons kv rest ih =>
    obtain ⟨k, v⟩ := kv
    by_cases h : k = a
    · simp [findA, h]
    · simp [findA, h, ih]

theorem findA_bumpAll_self (names : List String) (m : Participants) (a pref : String) :
    findA (bumpAll m a pref names) a =
      (findA m a).map (fun c => names.foldl (fun c2 l => incrK c2 (pref ++ l)) c) := by
  induction names generalizing m with
  | nil => simp [bumpAll]
  | cons n ns ih =>
    simp only [bumpAll, List.foldl_cons] at ih ⊢
    rw [ih, findA_updA_self, Option.map_map]
    rfl

theorem findA_bumpAll_ne (names : List String) (m : Participants) (a b pref : String)
    (h : b ≠ a) : findA (bumpAll m a pref names) b = findA m b := by
  induction names generalizing m with
  | nil => simp [bumpAll]
  | cons n ns ih =>
    simp only [bumpAll, List.foldl_cons] at ih ⊢
    rw [ih, findA_updA_ne _ _ _ _ h]

theorem mem_of_findA {α : Type} (m : List (String × α)) (a : String) (c : α)
    (h : findA m a = some c) : (a, c) ∈ m := by
  induction m with
  | nil => simp [findA] at h
  | cons kv rest ih =>
    obtain ⟨k, v⟩ := kv
    by_cases hk : k = a
    · subst hk
      simp [findA] at h
      simp [h]
    · simp [findA, hk] at h
      exact List.mem_cons_of_mem _ (ih h)

theorem addCounts_initCounts (c : Counts) : addCounts c initCounts = c := by
  cases c
  simp [addCounts, initCounts]

theorem incrK_p_eq (c : Counts) (n : String) :
    incrK c ("p_" ++ n) =
      if n = "enhancement" then { c with p_enhancement := c.p_enhancement + 1 }
      else if n = "bug" then { c with p_bug := c.p_bug + 1 }
      else if n = "documentation" then { c with p_documentation := c.p_documentation + 1 }
      else c := by
  by_cases h1 : n = "enhancement"
  · subst h1
    rw [show ("p_" ++ "enhancement" : String) = "p_enhancement" from by decide]
    simp [incrK]
  · by_cases h2 : n = "bug"
    · subst h2
      rw [show ("p_" ++ "bug" : String) = "p_bug" from by decide]
      simp [incrK]
    · by_cases h3 : n = "documentation"
      · subst h3
        rw [show ("p_" ++ "documentation" : String) = "p_documentation" from by decide]
        simp [incrK]
      · have k1 : ("p_" ++ n) ≠ "p_enhancement" := fun h =>
          h1 ((strAppend_right_inj "p_" n "enhancement").1
            (h.trans (by decide)))
        have k2 : ("p_" ++ n) ≠ "p_bug" := fun h =>
          h2 ((strAppend_right_inj "p_" n "bug").1 (h.trans (by decide)))
        have k3 : ("p_" ++ n) ≠ "p_documentation" := fun h =>
          h3 ((strAppend_right_inj "p_" n "documentation").1 (h.trans (by decide)))
        have k4 : ("p_" ++ n) ≠ "i_enhancement" := fun h =>
          pKey_ne_iKey n "enhancement" (h.trans (by decide))
        have k5 : ("p_" ++ n) ≠ "i_bug" := fun h =>
          pKey_ne_iKey n "bug" (h.trans (by decide))
        have k6 : ("p_" ++ n) ≠ "i_documentation" := fun h =>
          pKey_ne_iKey n "documentation" (h.trans (by decide))
        simp [incrK, k1, k2, k3, k4, k5, k6, h1, h2, h3]

theorem iKey_ne_pKey (a b : String) : ("i_" ++ a) ≠ ("p_" ++ b) := by
  intro h
  exact pKey_ne_iKey b a h.symm

theorem incrK_i_eq (c : Counts) (n : String) :
    incrK c ("i_" ++ n) =
      if n = "enhancement" then { c with i_enhancement := c.i_enhancement + 1 }
      else if n = "bug" then { c with i_bug := c.i_bug + 1 }
      else if n = "documentation" then { c with i_documentation := c.i_documentation + 1 }
      else c := by
  by_cases h1 : n = "enhancement"
  · subst h1
    rw [show ("i_" ++ "enhancement" : String) = "i_enhancement" from by decide]
    simp [incrK]
  · by_cases h2 : n = "bug"
    · subst h2
      rw [show ("i_" ++ "bug" : String) = "i_bug" from by decide]
      simp [incrK]
    · by_cases h3 : n = "documentation"
      · subst h3
        rw [show ("i_" ++ "documentation" : String) = "i_documentation" from by decide]
        simp [incrK]
      · have k1 : ("i_" ++ n) ≠ "p_enhancement" := fun h =>
          iKey_ne_pKey n "enhancement" (h.trans (by decide))
        have k2 : ("i_" ++ n) ≠ "p_bug" := fun h =>
          iKey_ne_pKey n "bug" (h.trans (by decide))
        have k3 : ("i_" ++ n) ≠ "p_documentation" := fun h =>
          iKey_ne_pKey n "documentation" (h.trans (by decide))
        have k4 : ("i_" ++ n) ≠ "i_enhancement" := fun h =>
          h1 ((strAppend_right_inj "i_" n "enhancement").1 (h.trans (by decide)))
        have k5 : ("i_" ++ n) ≠ "i_bug" := fun h =>
          h2 ((strAppend_right_inj "i_" n "bug").1 (h.trans (by decide)))
        have k6 : ("i_" ++ n) ≠ "i_documentation" := fun h =>
          h3 ((strAppend_right_inj "i_" n "documentation").1 (h.trans (by decide)))
        simp [incrK, k1, k2, k3, k4, k5, k6, h1, h2, h3]

theorem pfold_eq (names : List String) (c : Counts) :
    names.foldl (fun c2 l => incrK c2 ("p_" ++ l)) c =
      addCounts c
        ⟨names.count "enhancement", names.count "bug", names.count "documentation",
          0, 0, 0⟩ := by
  induction names generalizing c with
  | nil =>
    cases c
    simp [addCounts]
  | cons n ns ih =>
    rw [List.foldl_cons, incrK_p_eq, ih]
    by_cases h1 : n = "enhancement"
    · subst h1
      cases c
      simp [addCounts, List.count_cons]
      omega
    · by_cases h2 : n = "bug"
      · subst h2
        cases c
        simp [addCounts, List.count_cons, h1]
        omega
      · by_cases h3 : n = "documentation"
        · subst h3
          cases c
          simp [addCounts, List.count_cons, h1, h2]
          omega
        · cases c
          simp [addCounts, List.count_cons, h1, h2, h3,
            Ne.symm h1, Ne.symm h2, Ne.symm h3]

theorem ifold_eq (names : List String) (c : Counts) :
    names.foldl (fun c2 l => incrK c2 ("i_" ++ l)) c =
      addCounts c
        ⟨0, 0, 0, names.count "enhancement", names.count "bug",
          names.count "documentation"⟩ := by
  induction names generalizing c with
  | nil =>
    cases c
    simp [addCounts]
  | cons n ns ih =>
    rw [List.foldl_cons, incrK_i_eq, ih]
    by_cases h1 : n = "enhancement"
    · subst h1
      cases c
      simp [addCounts, List.count_cons]
      omega
    · by_cases h2 : n = "bug"
      · subst h2
        cases c
        simp [addCounts, List.count_cons, h1]
        omega
      · by_cases h3 : n = "documentation"
        · subst h3
          cases c
          simp [addCounts, List.count_cons, h1, h2]
          omega
        · cases c
          simp [addCounts, List.count_cons, h1, h2, h3,
            Ne.symm h1, Ne.symm h2, Ne.symm h3]

theorem count_filterEmpty_toLower (l : List String) (lbl : String) (h : lbl ≠ "") :
    ((l.filter (fun n => n != "")).map lowerStr).count lbl =
      (l.map lowerStr).count lbl := by
  induction l with
  | nil => rfl
  | cons x xs ih =>
    by_cases hx : x = ""
    · subst hx
      have hlow : lowerStr "" = "" := rfl
      simp [List.count_cons, hlow, Ne.symm h, ih]
    · simp [List.filter_cons, hx, List.count_cons, ih]

theorem count_lowNames (it : Item) (lbl : String) (h : lbl ≠ "") :
    (lowNames it).count lbl = labelCount it lbl := by
  simp only [lowNames, labelCount]
  exact count_filterEmpty_toLower it.labels lbl h

theorem findA_processItem_self (m : Participants) (it : Item) :
    findA (processItem m it) (authorOf it) =
      some (addCounts ((findA m (authorOf it)).getD initCounts) (deltaOf it)) := by
  have hm1 :
      findA
        (if (findA m (authorOf it)).isSome then m
          else m ++ [(authorOf it, initCounts)]) (authorOf it) =
        some ((findA m (authorOf it)).getD initCounts) := by
    cases h : findA m (authorOf it) with
    | none => simp [h, findA_append, findA]
    | some c => simp [h]
  obtain ⟨u, ls, pr, sr⟩ := it
  cases pr with
  | none =>
    by_cases hok : okState sr = true
    · have hd : deltaOf ⟨u, ls, none, sr⟩ =
          ⟨0, 0, 0, labelCount ⟨u, ls, none, sr⟩ "enhancement",
            labelCount ⟨u, ls, none, sr⟩ "bug",
            labelCount ⟨u, ls, none, sr⟩ "documentation"⟩ := by
        simp [deltaOf, prCredits, issueCredits, hok]
      simp only [processItem] at hm1 ⊢
      rw [if_pos hok, findA_bumpAll_self, hm1, Option.map_some', ifold_eq,
        count_lowNames _ _ (by decide), count_lowNames _ _ (by decide),
        count_lowNames _ _ (by decide), hd]
    · have hd : deltaOf ⟨u, ls, none, sr⟩ = initCounts := by
        simp [deltaOf, prCredits, issueCredits, hok]
      simp only [processItem] at hm1 ⊢
      rw [if_neg hok, hm1, hd, addCounts_initCounts]
  | some mAt =>
    by_cases hme : truthy mAt = true
    · have hd : deltaOf ⟨u, ls, some mAt, sr⟩ =
          ⟨labelCount ⟨u, ls, some mAt, sr⟩ "enhancement",
            labelCount ⟨u, ls, some mAt, sr⟩ "bug",
            labelCount ⟨u, ls, some mAt, sr⟩ "documentation", 0, 0, 0⟩ := by
        simp [deltaOf, prCredits, issueCredits, hme]
      simp only [processItem] at hm1 ⊢
      rw [if_pos hme, findA_bumpAll_self, hm1, Option.map_some', pfold_eq,
        count_lowNames _ _ (by decide), count_lowNames _ _ (by decide),
        count_lowNames _ _ (by decide), hd]
    · have hd : deltaOf ⟨u, ls, some mAt, sr⟩ = initCounts := by
        simp [deltaOf, prCredits, issueCredits, hme]
      simp only [processItem] at hm1 ⊢
      rw [if_neg hme, hm1, hd, addCounts_initCounts]

theorem findA_processItem_ne (m : Participants) (it : Item) (b : String)
    (h : b ≠ authorOf it) : findA (processItem m it) b = findA m b := by
  have hm1 :
      findA
        (if (findA m (authorOf it)).isSome then m
          else m ++ [(authorOf it, initCounts)]) b = findA m b := by
    cases hq : findA m (authorOf it) with
    | none => simp [findA_append, findA, Ne.symm h]
    | some c => simp
  obtain ⟨u, ls, pr, sr⟩ := it
  cases pr with
  | none =>
    by_cases hok : okState sr = true
    · simp only [processItem] at hm1 ⊢
      rw [if_pos hok, findA_bumpAll_ne _ _ _ _ _ h, hm1]
    · simp only [processItem] at hm1 ⊢
      rw [if_neg hok, hm1]
  | some mAt =>
    by_cases hme : truthy mAt = true
    · simp only [processItem] at hm1 ⊢
      rw [if_pos hme, findA_bumpAll_ne _ _ _ _ _ h, hm1]
    · simp only [processItem] at hm1 ⊢
      rw [if_neg hme, hm1]

theorem findA_processItems (items : List Item) (m : Participants) (a : String) :
    findA (processItems m items) a =
      match findA m a with
      | some c => some (creditGo a c items)
      | none =>
        if items.any (fun it => authorOf it == a) then
          some (creditGo a initCounts items)
        else none := by
  induction items generalizing m with
  | nil => cases h : findA m a <;> simp [processItems, creditGo, h]
  | cons it its ih =>
    have hstep : processItems m (it :: its) = processItems (processItem m it) its := by
      simp [processItems]
    rw [hstep, ih]
    by_cases hb : authorOf it = a
    · rw [show findA (processItem m it) a =
          some (addCounts ((findA m a).getD initCounts) (deltaOf it)) from
            hb ▸ findA_processItem_self m it]
      cases h : findA m a with
      | some c => simp [creditGo, hb, h]
      | none => simp [creditGo, hb, h]
    · rw [findA_processItem_ne m it a (fun he => hb he.symm)]
      cases h : findA m a with
      | some c => simp [creditGo, hb, h]
      | none => simp [creditGo, hb, h]

theorem creditGo_const (a : String) (items : List Item)
    (hz : ∀ it ∈ items, authorOf it = a → deltaOf it = initCounts) (c : Counts) :
    creditGo a c items = c := by
  induction items generalizing c with
  | nil => rfl
  | cons it its ih =>
    have htail : ∀ it2 ∈ its, authorOf it2 = a → deltaOf it2 = initCounts :=
      fun it2 h2 => hz it2 (List.mem_cons_of_mem _ h2)
    by_cases hb : authorOf it = a
    · simp only [creditGo, hb, if_true]
      rw [hz it (List.mem_cons_self it its) hb, addCounts_initCounts]
      exact ih htail _
    · simp only [creditGo, hb, if_false]
      exact ih htail _

/-! ## Sorting lemmas -/

theorem insertByTotal_perm (x : String × Score) (l : List (String × Score)) :
    List.Perm (insertByTotal x l) (x :: l) := by
  induction l with
  | nil => rfl
  | cons y ys ih =>
    by_cases h : x.2.total < y.2.total
    · simp only [insertByTotal, h, if_true]
      exact (ih.cons y).trans (List.Perm.swap x y ys)
    · simp only [insertByTotal, h, if_false]
      exact List.Perm.refl _

theorem sortByTotalDesc_perm (l : List (String × Score)) :
    List.Perm (sortByTotalDesc l) l := by
  induction l with
  | nil => rfl
  | cons x xs ih =>
    exact (insertByTotal_perm x (sortByTotalDesc xs)).trans (ih.cons x)


theorem pairwise_insertByTotal (x : String × Score) (l : List (String × Score))
    (hl : l.Pairwise (fun a b => b.2.total ≤ a.2.total)) :
    (insertByTotal x l).Pairwise (fun a b => b.2.total ≤ a.2.total) := by
  induction l with
  | nil => simp [insertByTotal]
  | cons y ys ih =>
    obtain ⟨hy, hys⟩ := List.pairwise_cons.1 hl
    by_cases h : x.2.total < y.2.total
    · simp only [insertByTotal, h, if_true]
      refine List.pairwise_cons.2 ⟨?_, ih hys⟩
      intro z hz
      rcases List.mem_cons.1 ((insertByTotal_perm x ys).mem_iff.1 hz) with hzx | hzy
      · subst hzx
        exact le_of_lt h
      · exact hy z hzy
    · simp only [insertByTotal, h, if_false]
      refine List.pairwise_cons.2 ⟨?_, hl⟩
      intro z hz
      rcases List.mem_cons.1 hz with hzy | hzys
      · subst hzy
        exact not_lt.1 h
      · exact le_trans (hy z hzys) (not_lt.1 h)

theorem sorted_sortByTotalDesc (l : List (String × Score)) :
    (sortByTotalDesc l).Pairwise (fun a b => b.2.total ≤ a.2.total) := by
  induction l with
  | nil => exact List.Pairwise.nil
  | cons x xs ih => exact pairwise_insertByTotal x (sortByTotalDesc xs) ih

theorem filter_insertByTotal (k : ℤ) (x : String × Score)
    (l : List (String × Score)) :
    (insertByTotal x l).filter (fun e => e.2.total == k) =
      if x.2.total = k then x :: l.filter (fun e => e.2.total == k)
      else l.filter (fun e => e.2.total == k) := by
  induction l with
  | nil =>
    by_cases h : x.2.total = k <;>
      simp [insertByTotal, List.filter_cons, h, beq_iff_eq]
  | cons y ys ih =>
    by_cases hlt : x.2.total < y.2.total
    · simp only [insertByTotal, hlt, if_true]
      by_cases hx : x.2.total = k
      · have hyk : ¬(y.2.total = k) := by omega
        simp [List.filter_cons, hyk, ih, hx, beq_iff_eq]
      · by_cases hyk : y.2.total = k <;>
          simp [List.filter_cons, ih, hx, hyk, beq_iff_eq]
    · simp only [insertByTotal, hlt, if_false]
      by_cases hx : x.2.total = k <;>
        simp [List.filter_cons, hx, beq_iff_eq]

theorem filter_sortByTotalDesc (k : ℤ) (l : List (String × Score)) :
    (sortByTotalDesc l).filter (fun e => e.2.total == k) =
      l.filter (fun e => e.2.total == k) := by
  induction l with
  | nil => rfl
  | cons x xs ih =>
    rw [show sortByTotalDesc (x :: xs) = insertByTotal x (sortByTotalDesc xs) from rfl,
      filter_insertByTotal, ih]
    by_cases hx : x.2.total = k <;> simp [List.filter_cons, hx]

theorem withRates_names (parts : ActivityMap) :
    (withRates parts).map Prod.fst = parts.map Prod.fst := by
  simp [withRates, scoreList, List.map_map]


/-! ## Claim theorems: collector and ordering -/

/-- C4: the mapping returned by `calculate_scores` is ordered by total
descending, and the ordering is stable: filtering the output to any fixed
total gives exactly the entries of the un-sorted rated list, in its order —
and that list carries the participants in the order first observed in the
input mapping. -/
theorem output_sorted_stable (parts : ActivityMap) :
    (calculate_scores parts).Pairwise (fun a b => b.2.total ≤ a.2.total) ∧
    (∀ k : ℤ, (calculate_scores parts).filter (fun e => e.2.total == k) =
      (withRates parts).filter (fun e => e.2.total == k)) ∧
    (withRates parts).map Prod.fst = parts.map Prod.fst :=
  ⟨sorted_sortByTotalDesc _, fun k => filter_sortByTotalDesc k _,
    withRates_names parts⟩

/-- C9: processing one fetched item updates exactly its author's bucket
dict, adding `deltaOf it`: a pull request contributes only when merged, an
issue only when its `state_reason` is `None`, `'reopened'` or
`'completed'`, and each qualifying item adds +1 to `p_<label>`
(respectively `i_<label>`) for every label that case-insensitively matches
`enhancement`, `bug` or `documentation`; every other participant's dict is
untouched. -/
theorem item_bucket_increments (m : Participants) (it : Item) :
    findA (processItem m it) (authorOf it) =
      some (addCounts ((findA m (authorOf it)).getD initCounts) (deltaOf it)) ∧
    ∀ b : String, b ≠ authorOf it → findA (processItem m it) b = findA m b :=
  ⟨findA_processItem_self m it, fun b hb => findA_processItem_ne m it b hb⟩

/-- C9 witness: alice's merged PR labelled `Enhancement`, `bug`, `wontfix`
credits her `p_enhancement` and `p_bug` buckets once each, and bob's entry
is untouched. -/
theorem item_bucket_increments_witness :
    (findA (processItem [] itemPR) (authorOf itemPR) =
      some (addCounts ((findA ([] : Participants) (authorOf itemPR)).getD initCounts)
        (deltaOf itemPR)) ∧
      findA (processItem [] itemPR) "bob" = findA ([] : Participants) "bob") ∧
    deltaOf itemPR = ⟨1, 1, 0, 0, 0, 0⟩ :=
  ⟨⟨(item_bucket_increments [] itemPR).1,
    (item_bucket_increments [] itemPR).2 "bob" (by decide)⟩, by decide⟩

/-- C10: every author of any fetched item is registered in the collector's
dict; and an author none of whose items qualifies for credit still ends
with the all-zero bucket dict and appears in the scorer's output with every
breakdown component 0, total 0 and rate 0. -/
theorem authors_always_registered :
    (∀ (m : Participants) (items : List Item) (it : Item), it ∈ items →
      (findA (processItems m items) (authorOf it)).isSome = true) ∧
    (∀ (items : List Item) (a : String),
      (∃ it ∈ items, authorOf it = a) →
      (∀ it ∈ items, authorOf it = a → deltaOf it = initCounts) →
      findA (processItems [] items) a = some initCounts ∧
      (a, zeroScore) ∈ calculate_scores (toActivityMap (processItems [] items))) := by
  constructor
  · intro m items it hmem
    rw [findA_processItems]
    cases h : findA m (authorOf it) with
    | some c => simp
    | none =>
      have hany : items.any (fun it2 => authorOf it2 == authorOf it) = true :=
        List.any_eq_true.2 ⟨it, hmem, by simp⟩
      simp [hany]
  · intro items a hex hz
    have h1 : findA (processItems [] items) a = some initCounts := by
      rw [findA_processItems]
      have hany : items.any (fun it => authorOf it == a) = true := by
        obtain ⟨it, hit, he⟩ := hex
        exact List.any_eq_true.2 ⟨it, hit, by simp [he]⟩
      simp [findA, hany, creditGo_const a items hz]
    refine ⟨h1, ?_⟩
    have hmem : (a, initCounts) ∈ processItems [] items := mem_of_findA _ _ _ h1
    have hmem2 : (a, toActivities initCounts) ∈ toActivityMap (processItems [] items) :=
      List.mem_map_of_mem _ hmem
    have hmem3 : (a, scoreOne (toActivities initCounts)) ∈
        scoreList (toActivityMap (processItems [] items)) :=
      List.mem_map_of_mem _ hmem2
    have hmem5 : (a, zeroScore) ∈ withRates (toActivityMap (processItems [] items)) := by
      simp only [withRates]
      refine List.mem_map.2 ⟨(a, scoreOne (toActivities initCounts)), hmem3, ?_⟩
      have hz0 : scoreOne (toActivities initCounts) = zeroScore := by decide
      rw [hz0]
      by_cases hT : 0 < total_score_sum (toActivityMap (processItems [] items))
      · have hr : round1 (((zeroScore.total : ℚ) /
            ((total_score_sum (toActivityMap (processItems [] items)) : ℤ) : ℚ)) * 100) =
            0 := by
          rw [show ((zeroScore.total : ℚ)) = 0 from by decide]
          rw [zero_div, zero_mul]
          decide
        simp only [hT, if_true, hr]
        rfl
      · simp only [hT, if_false]
        rfl
    rw [show calculate_scores (toActivityMap (processItems [] items)) =
      sortByTotalDesc (withRates (toActivityMap (processItems [] items))) from rfl]
    exact (sortByTotalDesc_perm _).mem_iff.2 hmem5

/-- C10 witness: alice's only item is an unmerged PR with a matching label;
she is registered with all-zero buckets and appears in the scorer output
with the all-zero row. -/
theorem authors_always_registered_witness :
    (findA (processItems [] [itemUnmerged]) (authorOf itemUnmerged)).isSome = true ∧
    (findA (processItems [] [itemUnmerged]) "alice" = some initCounts ∧
      ("alice", zeroScore) ∈
        calculate_scores (toActivityMap (processItems [] [itemUnmerged]))) :=
  ⟨authors_always_registered.1 [] [itemUnmerged] itemUnmerged (by decide),
    authors_always_registered.2 [itemUnmerged] "alice" (by decide) (by decide)⟩


/-! ## Rounding lemmas -/

theorem roundHalfEven_abs (q : ℚ) : |((roundHalfEven q : ℤ) : ℚ) - q| ≤ 1/2 := by
  have h0 : ((⌊q⌋ : ℤ) : ℚ) ≤ q := Int.floor_le q
  have h1 : q < ((⌊q⌋ : ℤ) : ℚ) + 1 := Int.lt_floor_add_one q
  unfold roundHalfEven
  split_ifs with hc1 hc2 hc3 <;>
    (rw [abs_le]; constructor <;> push_cast at * <;> linarith)

theorem round1_abs (q : ℚ) : |round1 q - q| ≤ 1/20 := by
  have h := roundHalfEven_abs (q * 10)
  have e : round1 q - q = (((roundHalfEven (q * 10) : ℤ) : ℚ) - q * 10) / 10 := by
    rw [round1]
    ring
  rw [e, abs_div, show |(10 : ℚ)| = 10 from by norm_num]
  linarith

theorem abs_sum_sub_le {α : Type} (l : List α) (f g : α → ℚ) (c : ℚ)
    (h : ∀ x ∈ l, |f x - g x| ≤ c) :
    |(l.map f).sum - (l.map g).sum| ≤ l.length * c := by
  induction l with
  | nil => simp
  | cons x xs ih =>
    have hx := h x (List.mem_cons_self x xs)
    have hxs := ih (fun y hy => h y (List.mem_cons_of_mem x hy))
    simp only [List.map_cons, List.sum_cons, List.length_cons]
    have e : f x + (xs.map f).sum - (g x + (xs.map g).sum) =
        (f x - g x) + ((xs.map f).sum - (xs.map g).sum) := by
      ring
    rw [e]
    have habs := abs_add (f x - g x) ((xs.map f).sum - (xs.map g).sum)
    have hcast : ((xs.length + 1 : ℕ) : ℚ) = (xs.length : ℚ) + 1 := by push_cast; ring
    rw [hcast]
    nlinarith [abs_nonneg (f x - g x)]

theorem sum_rateExpr (l : List ℤ) (T : ℚ) :
    (l.map (fun (t : ℤ) => ((t : ℚ) / T) * 100)).sum = ((l.sum : ℤ) : ℚ) / T * 100 := by
  induction l with
  | nil => simp
  | cons x xs ih =>
    simp only [List.map_cons, List.sum_cons, ih]
    push_cast
    ring

/-! ## Claim theorems: rates -/

/-- C3: each participant's rate equals `round(100 * total / sum_of_totals, 1)`
whenever the sum of totals is strictly positive, and is exactly 0 when that
sum is 0 (the guarded conditional in `withRates` performs the division only
under `0 < total_score_sum`). -/
theorem rate_formula (parts : ActivityMap) (e : String × Score)
    (he : e ∈ calculate_scores parts) :
    (0 < total_score_sum parts →
      e.2.rate = round1 (100 * (e.2.total : ℚ) / ((total_score_sum parts : ℤ) : ℚ))) ∧
    (total_score_sum parts = 0 → e.2.rate = 0) := by
  have he2 : e ∈ withRates parts :=
    (sortByTotalDesc_perm (withRates parts)).mem_iff.1 he
  simp only [withRates] at he2
  obtain ⟨x, hx, rfl⟩ := List.mem_map.1 he2
  constructor
  · intro hT
    have harith : ((x.2.total : ℚ) / ((total_score_sum parts : ℤ) : ℚ)) * 100 =
        100 * (x.2.total : ℚ) / ((total_score_sum parts : ℤ) : ℚ) := by
      ring
    dsimp only
    rw [if_pos hT, harith]
  · intro hT
    dsimp only
    rw [if_neg (by omega)]

/-- C3 witness: with one participant of total 3 the rate is
`round1 (100 * 3 / 3) = 100`; with one all-zero participant the rate is 0. -/
theorem rate_formula_witness :
    (("a", (⟨3, 0, 0, 0, 3, 100⟩ : Score)) ∈ calculate_scores partsA ∧
      (⟨3, 0, 0, 0, 3, 100⟩ : Score).rate =
        round1 (100 * (((⟨3, 0, 0, 0, 3, 100⟩ : Score).total : ℤ) : ℚ) /
          ((total_score_sum partsA : ℤ) : ℚ))) ∧
    (("z", zeroScore) ∈ calculate_scores partsZ ∧ zeroScore.rate = 0) :=
  ⟨⟨by decide, (rate_formula partsA ("a", ⟨3, 0, 0, 0, 3, 100⟩) (by decide)).1 (by decide)⟩,
    ⟨by decide, (rate_formula partsZ ("z", zeroScore) (by decide)).2 (by decide)⟩⟩

/-- C7 counterexample: with six equal participants the sum of rates is
100.2, which misses 100.0 by 0.2 — outside the claimed ±0.1 tolerance —
while the sum of totals (18) is strictly positive. -/
theorem rate_sum_tolerance_violated :
    0 < total_score_sum parts6 ∧
    ((calculate_scores parts6).map (fun e => e.2.rate)).sum = 501/5 ∧
    ¬(|((calculate_scores parts6).map (fun e => e.2.rate)).sum - 100| ≤ 1/10) := by
  refine ⟨by decide, by decide, ?_⟩
  rw [show ((calculate_scores parts6).map (fun e => e.2.rate)).sum = 501/5 from by decide]
  have h5 : ((501 : ℚ)/5) - 100 = 1/5 := by norm_num
  rw [h5, abs_of_nonneg (show (0 : ℚ) ≤ 1/5 from by norm_num)]
  norm_num

/-- C7 amended: whenever the sum of totals is strictly positive, the sum of
all rates differs from 100 by at most `n/20` (= 0.05 per participant, the
worst case of one half-ulp of `round(·, 1)` each), `n` being the number of
participants; the ±0.1 tolerance as claimed holds only for `n ≤ 2`.  When
the sum of totals is 0, every rate is 0. -/
theorem rate_sum_bound (parts : ActivityMap) :
    (0 < total_score_sum parts →
      |((calculate_scores parts).map (fun e => e.2.rate)).sum - 100| ≤
        ((calculate_scores parts).length : ℚ) / 20) ∧
    (total_score_sum parts = 0 →
      ∀ e ∈ calculate_scores parts, e.2.rate = 0) := by
  constructor
  · intro hT
    have hperm := sortByTotalDesc_perm (withRates parts)
    have hsum : ((calculate_scores parts).map (fun e => e.2.rate)).sum =
        ((withRates parts).map (fun e => e.2.rate)).sum :=
      (hperm.map (fun e => e.2.rate)).sum_eq
    have hlen : (calculate_scores parts).length = (withRates parts).length :=
      hperm.length_eq
    rw [hsum, hlen]
    have hrates : ((withRates parts).map (fun e => e.2.rate)) =
        (scoreList parts).map
          (fun e => round1 (((e.2.total : ℚ) / ((total_score_sum parts : ℤ) : ℚ)) * 100)) := by
      simp only [withRates, List.map_map]
      refine List.map_congr_left (fun e he => ?_)
      dsimp only [Function.comp]
      rw [if_pos hT]
    have hlen2 : (withRates parts).length = (scoreList parts).length := by
      simp [withRates]
    rw [hrates, hlen2]
    have hbound := abs_sum_sub_le (scoreList parts)
      (fun e => round1 (((e.2.total : ℚ) / ((total_score_sum parts : ℤ) : ℚ)) * 100))
      (fun e => ((e.2.total : ℚ) / ((total_score_sum parts : ℤ) : ℚ)) * 100)
      (1/20) (fun x hx => round1_abs _)
    have hTQ : ((total_score_sum parts : ℤ) : ℚ) ≠ 0 := by
      have : (0 : ℚ) < ((total_score_sum parts : ℤ) : ℚ) := by
        exact_mod_cast hT
      linarith
    have hg : ((scoreList parts).map
        (fun e => ((e.2.total : ℚ) / ((total_score_sum parts : ℤ) : ℚ)) * 100)).sum
          = 100 := by
      rw [show (scoreList parts).map
          (fun e => ((e.2.total : ℚ) / ((total_score_sum parts : ℤ) : ℚ)) * 100) =
          ((scoreList parts).map (fun e => e.2.total)).map
            (fun (t : ℤ) => ((t : ℚ) / ((total_score_sum parts : ℤ) : ℚ)) * 100) from by
        rw [List.map_map]
        rfl]
      rw [sum_rateExpr]
      rw [show ((scoreList parts).map (fun e => e.2.total)).sum = total_score_sum parts
        from rfl]
      rw [div_self hTQ, one_mul]
    have hfin : ((scoreList parts).length : ℚ) * (1/20) =
        ((scoreList parts).length : ℚ) / 20 := by
      ring
    rw [hfin, hg] at hbound
    exact hbound
  · intro hT e he
    have he2 : e ∈ withRates parts :=
      (sortByTotalDesc_perm (withRates parts)).mem_iff.1 he
    simp only [withRates] at he2
    obtain ⟨x, hx, rfl⟩ := List.mem_map.1 he2
    dsimp only
    rw [if_neg (by omega)]

/-- C7 witness: the amended bound at one participant of total 3 (rate sum
exactly 100), and the zero case at one all-zero participant. -/
theorem rate_sum_bound_witness :
    (0 < total_score_sum partsA ∧
      |((calculate_scores partsA).map (fun e => e.2.rate)).sum - 100| ≤
        ((calculate_scores partsA).length : ℚ) / 20) ∧
    (total_score_sum partsZ = 0 ∧
      ∀ e ∈ calculate_scores partsZ, e.2.rate = 0) :=
  ⟨⟨by decide, (rate_sum_bound partsA).1 (by decide)⟩,
    ⟨by decide, (rate_sum_bound partsZ).2 (by decide)⟩⟩


/-! ## Claim theorems, part 1 -/

/-- C1: for non-negative activity counts, `calculate_scores` stores the four
breakdown components `3*p_fb_at`, `2*p_d_at`, `2*i_fb_at`, `1*i_d_at` built
from `p_fb = p_enh + p_bug`, `p_valid = p_fb + min(p_doc, 3*max(1, p_fb))`,
`i_valid = min(i_fb + i_doc, 4*p_valid)`, `p_fb_at = min(p_fb, p_valid)`,
`p_d_at = p_valid - p_fb`, `i_fb_at = min(i_fb, i_valid)`,
`i_d_at = i_valid - i_fb_at`, and the stored total is their sum
`3*p_fb_at + 2*p_d_at + 2*i_fb_at + 1*i_d_at`; on the input
`{p_enhancement: 2, p_documentation: 10}` the total is 18. -/
theorem scorer_weighted_total :
    (∀ pf pb pd ie ib id2 : ℕ,
      let a : Activities :=
        ⟨some (pf : ℤ), some (pb : ℤ), some (pd : ℤ),
          some (ie : ℤ), some (ib : ℤ), some (id2 : ℤ)⟩
      let p_fb : ℤ := (pf : ℤ) + (pb : ℤ)
      let i_fb : ℤ := (ie : ℤ) + (ib : ℤ)
      let p_valid : ℤ := p_fb + min (pd : ℤ) (3 * max 1 p_fb)
      let i_valid : ℤ := min (i_fb + (id2 : ℤ)) (4 * p_valid)
      let p_fb_at : ℤ := min p_fb p_valid
      let p_d_at : ℤ := p_valid - p_fb
      let i_fb_at : ℤ := min i_fb i_valid
      let i_d_at : ℤ := i_valid - i_fb_at
      (scoreOne a).featBugPR = 3 * p_fb_at ∧
      (scoreOne a).docPR = 2 * p_d_at ∧
      (scoreOne a).featBugIssue = 2 * i_fb_at ∧
      (scoreOne a).docIssue = 1 * i_d_at ∧
      (scoreOne a).total = 3 * p_fb_at + 2 * p_d_at + 2 * i_fb_at + 1 * i_d_at ∧
      (scoreOne a).total =
        (scoreOne a).featBugPR + (scoreOne a).docPR +
          (scoreOne a).featBugIssue + (scoreOne a).docIssue) ∧
    (scoreOne ⟨some 2, some 0, some 10, some 0, some 0, some 0⟩).total = 18 := by
  refine ⟨fun pf pb pd ie ib id2 => ⟨rfl, rfl, rfl, rfl, rfl, rfl⟩, by decide⟩

/-- C2 counterexample: a negative `p_enhancement` count is not normalized to
zero — the output differs from the output on the zero-clamped mapping
(total −11 versus 0). -/
theorem negative_counts_not_normalized :
    calculate_scores [("a", (⟨some (-1), none, none, none, none, none⟩ : Activities))] ≠
      calculate_scores
        [("a", normalizeNonneg (⟨some (-1), none, none, none, none, none⟩ : Activities))] ∧
    (scoreOne (⟨some (-1), none, none, none, none, none⟩ : Activities)).total = -11 := by
  decide

/-- C2 amended: `calculate_scores` treats each of the six keys that is
missing as 0, so its output equals its output on the mapping in which every
missing count is replaced by an explicit 0, and (being a total function) no
error is raised; negative counts, however, are not normalized — they flow
into the arithmetic unchanged. -/
theorem missing_keys_default_zero (parts : ActivityMap) :
    calculate_scores (parts.map (fun p => (p.1, fillMissing p.2))) =
      calculate_scores parts := by
  unfold calculate_scores withRates total_score_sum
  rw [scoreList_fillMissing]

/-- C6 counterexample: on the input with `p_documentation = -1` (all other
counts 0) the intermediate `p_valid` is below `p_fb` and the stored
`document PR` component is negative. -/
theorem p_valid_lt_p_fb_on_negative_doc :
    p_valid_of 0 (-1) < 0 ∧
    (scoreOne (⟨some 0, some 0, some (-1), some 0, some 0, some 0⟩ : Activities)).docPR
      = -2 := by
  decide

/-- C6 amended: for every input whose `p_documentation` count is
non-negative — in particular every input meeting the documented
non-negative contract — `p_valid ≥ p_fb`, so `p_d_at = p_valid - p_fb`
and hence the stored `document PR` component `2 * p_d_at` are
non-negative. -/
theorem p_valid_ge_p_fb_nonneg (a : Activities)
    (hd : 0 ≤ a.p_documentation.getD 0) :
    let p_fb := a.p_enhancement.getD 0 + a.p_bug.getD 0
    let p_d := a.p_documentation.getD 0
    p_fb ≤ p_valid_of p_fb p_d ∧
    (scoreOne a).docPR = 2 * (p_valid_of p_fb p_d - p_fb) ∧
    0 ≤ (scoreOne a).docPR := by
  intro p_fb p_d
  have hmax : (1 : ℤ) ≤ max 1 p_fb := le_max_left 1 p_fb
  have hmin : 0 ≤ min p_d (3 * max 1 p_fb) := le_min hd (by linarith)
  refine ⟨by simp only [p_valid_of]; linarith, rfl, ?_⟩
  show 0 ≤ 2 * (p_valid_of p_fb p_d - p_fb)
  simp only [p_valid_of]
  linarith

/-- C6 witness: the amended statement at the concrete input
`{p_enhancement: 2, p_documentation: 10}`. -/
theorem p_valid_ge_p_fb_nonneg_witness :
    (0 ≤ ((⟨some 2, some 0, some 10, some 0, some 0, some 0⟩ :
        Activities)).p_documentation.getD 0) ∧
    ((2 : ℤ) + 0 ≤ p_valid_of (2 + 0) 10 ∧
      (scoreOne (⟨some 2, some 0, some 10, some 0, some 0, some 0⟩ :
        Activities)).docPR = 2 * (p_valid_of (2 + 0) 10 - (2 + 0)) ∧
      0 ≤ (scoreOne (⟨some 2, some 0, some 10, some 0, some 0, some 0⟩ :
        Activities)).docPR) :=
  ⟨by decide,
    p_valid_ge_p_fb_nonneg
      (⟨some 2, some 0, some 10, some 0, some 0, some 0⟩ : Activities) (by decide)⟩

/-- C8: for every input, the intermediate `i_valid` computed by
`calculate_scores` is at most `4 * p_valid`. -/
theorem i_valid_le_four_p_valid (a : Activities) :
    let p_fb := a.p_enhancement.getD 0 + a.p_bug.getD 0
    let p_d := a.p_documentation.getD 0
    let i_fb := a.i_enhancement.getD 0 + a.i_bug.getD 0
    let i_d := a.i_documentation.getD 0
    i_valid_of (p_valid_of p_fb p_d) i_fb i_d ≤ 4 * p_valid_of p_fb p_d :=
  min_le_right _ _

/-- C5: a rate-limit (403) or any other non-200 response makes the
collection loop return at once with the participant dict untouched and the
`_data_collected` flag `False`; and whenever collection ends with that flag
`False`, the (spec-modelled) pipeline does not run the scorer. -/
theorem abort_on_http_failure :
    (∀ (r : PageResponse) (rest : List PageResponse) (parts : Participants),
      r.status ≠ 200 → collectGo (r :: rest) parts = (parts, false)) ∧
    (∀ pages : List PageResponse,
      (collect_PRs_and_issues pages).2 = false → runPipeline pages = none) := by
  constructor
  · intro r rest parts h
    by_cases h403 : r.status = 403
    · simp [collectGo, h403]
    · simp [collectGo, h403, h]
  · intro pages h
    simp [runPipeline, h]

/-- C5 witness: a single 403 page aborts with no participants and the
pipeline yields no scores. -/
theorem abort_on_http_failure_witness :
    ((403 : ℕ) ≠ 200 ∧
      collectGo [⟨403, [], false⟩] [] = ([], false)) ∧
    ((collect_PRs_and_issues [⟨403, [], false⟩]).2 = false ∧
      runPipeline [⟨403, [], false⟩] = none) :=
  ⟨⟨by decide, abort_on_http_failure.1 ⟨403, [], false⟩ [] [] (by decide)⟩,
    ⟨by decide, abort_on_http_failure.2 [⟨403, [], false⟩] (by decide)⟩⟩

end RepoScore
